import Mathlib

/-!
# SmartCart: verification of the cart and price-comparison logic

Shallow embedding of the SmartCart shopping-cart application.  The embedding
follows the TypeScript source: JavaScript numbers are modelled as rationals
(`ℚ`), optional fields as `Option`, and the JavaScript truthiness tests that
the source performs on optional numbers and strings are made explicit
(`qTruthy`, `sTruthy`).  The `uuidv4()` identifiers are modelled as natural
numbers drawn from a fresh counter; the only operation the source performs on
them is equality comparison.  `Array.prototype.sort`, which is required to be
stable by the ECMAScript standard, is modelled by the stable
`List.insertionSort`.
-/

namespace SmartCart

open scoped List

/-- JavaScript truthiness of an optional number: `undefined` and `0` are
falsy, every other numeric value is truthy. -/
def qTruthy : Option ℚ → Bool
  | none => false
  | some v => v != 0

/-- JavaScript truthiness of an optional string: `undefined` and the empty
string are falsy. -/
def sTruthy : Option String → Bool
  | none => false
  | some s => s != ""

/-- Model of `String.prototype.toLowerCase()` (characterwise lowering). -/
def jsLower (s : String) : String := String.mk (s.data.map Char.toLower)

/-- Model of `.replace(/_/g, ' ')`: every underscore becomes a space. -/
def underscoreToSpace (s : String) : String :=
  String.mk (s.data.map (fun c => if c = '_' then ' ' else c))

/-- `ScannedItem` from `types.ts`: the product record produced by the AI
extraction collaborator or by manual entry. -/
structure ScannedItem where
  productName : String
  price : ℚ
  category : Option String := none
  measureValue : Option ℚ := none
  measureUnit : Option String := none
deriving DecidableEq, Repr

/-- `CartItem` from `types.ts`: a `ScannedItem` plus an identifier and a
quantity. -/
structure CartItem extends ScannedItem where
  id : Nat
  quantity : Nat
deriving DecidableEq, Repr

/-! ## Comparison engine (`comparisonGroups`, `bestValueIds` in `App`) -/

/-- The grouping key used by `comparisonGroups`:
`item.category ? item.category.toLowerCase().replace(/_/g, ' ') : 'outros'`.
Note the truthiness test: a missing or empty category yields `"outros"`. -/
def catKey (e : CartItem) : String :=
  match e.category with
  | some c => if c = "" then "outros" else underscoreToSpace (jsLower c)
  | none => "outros"

/-- The filter applied by `comparisonGroups`:
`if (item.measureValue && item.measureUnit)`. -/
def hasMeasure (e : CartItem) : Bool :=
  qTruthy e.measureValue && sTruthy e.measureUnit

/-- `getBasePrice` from `comparisonGroups`:
`let val = i.measureValue || 1; if (i.measureUnit === 'kg') val *= 1000;
if (i.measureUnit === 'l') val *= 1000; return i.price / val;`. -/
def getBasePrice (i : CartItem) : ℚ :=
  let val0 : ℚ :=
    match i.measureValue with
    | some v => if v = 0 then 1 else v
    | none => 1
  let val1 : ℚ := if i.measureUnit = some "kg" then val0 * 1000 else val0
  let val2 : ℚ := if i.measureUnit = some "l" then val1 * 1000 else val1
  i.price / val2

/-- The sort comparator `(a, b) => getBasePrice(a) - getBasePrice(b)` orders
entries by nondecreasing base price. -/
def priceOrder (a b : CartItem) : Prop :=
  getBasePrice a ≤ getBasePrice b

instance : DecidableRel priceOrder := fun a b =>
  decidable_of_iff (getBasePrice a ≤ getBasePrice b) Iff.rfl

instance : IsTotal CartItem priceOrder :=
  ⟨fun a b => le_total (getBasePrice a) (getBasePrice b)⟩

instance : IsTrans CartItem priceOrder :=
  ⟨fun _ _ _ hab hbc => le_trans hab hbc⟩

/-- The (unsorted) contents of the comparison group for a given key: the
entries of `items`, in list order, that pass the measure filter and whose
normalized category equals the key.  An absent key is mapped to the empty
group, matching the absent entry of the `Record`. -/
def groupPre (items : List CartItem) (key : String) : List CartItem :=
  items.filter (fun e => hasMeasure e && catKey e == key)

/-- The comparison group for a key after the in-place stable
`grouped[key].sort(...)` by base price. -/
def comparisonGroup (items : List CartItem) (key : String) : List CartItem :=
  (groupPre items key).insertionSort priceOrder

/-- The keys present in the `comparisonGroups` record. -/
def groupKeys (items : List CartItem) : List String :=
  ((items.filter hasMeasure).map catKey).dedup

/-- `bestValueIds`: the ids of the heads of all groups of size at least 2. -/
def bestValueIds (items : List CartItem) : List Nat :=
  (groupKeys items).filterMap fun k =>
    let g := comparisonGroup items k
    if 2 ≤ g.length then g.head?.map (·.id) else none

/-! ## Totals (`totalCost`, `itemCount`, `isOverBudget`, `budgetPercentage`,
`remainingBudget` in `App`) -/

/-- `items.reduce((sum, item) => sum + item.price * item.quantity, 0)`. -/
def totalCost (items : List CartItem) : ℚ :=
  (items.map (fun i => i.price * (i.quantity : ℚ))).sum

/-- `items.reduce((sum, item) => sum + item.quantity, 0)`. -/
def itemCount (items : List CartItem) : Nat :=
  (items.map (·.quantity)).sum

/-- `budget !== null && totalCost > budget`. -/
def isOverBudget (budget : Option ℚ) (items : List CartItem) : Bool :=
  match budget with
  | none => false
  | some b => totalCost items > b

/-- `budget ? Math.min((totalCost / budget) * 100, 100) : 0`.  The truthiness
test makes a zero budget behave like an unset one. -/
def budgetPercentage (budget : Option ℚ) (items : List CartItem) : ℚ :=
  match budget with
  | some b => if b = 0 then 0 else min (totalCost items / b * 100) 100
  | none => 0

/-- `budget ? budget - totalCost : 0`; again `budget` is tested for
truthiness, so a zero budget yields 0. -/
def remainingBudget (budget : Option ℚ) (items : List CartItem) : ℚ :=
  match budget with
  | some b => if b = 0 then 0 else b - totalCost items
  | none => 0

/-! ## Decimal rendering and parsing

The embedding of the JavaScript number-to-string conversion used by the
template literals (for the integral `quantity`) and of `parseFloat`. -/

/-- The decimal digit character for `d < 10`. -/
def digitChar (d : Nat) : Char :=
  match d with
  | 0 => '0' | 1 => '1' | 2 => '2' | 3 => '3' | 4 => '4'
  | 5 => '5' | 6 => '6' | 7 => '7' | 8 => '8' | _ => '9'

/-- Numeric value of a decimal digit character. -/
def digitVal (c : Char) : Nat := c.toNat - 48

/-- Decimal digits of a natural number, most significant first; the model of
the JavaScript rendering of an integral number. -/
def natToDigits (n : Nat) : List Char :=
  if _h : n < 10 then [digitChar n]
  else natToDigits (n / 10) ++ [digitChar (n % 10)]
decreasing_by exact Nat.div_lt_self (by omega) (by omega)

def natToStr (n : Nat) : String := String.mk (natToDigits n)

/-- Reads a digit string back into a number. -/
def natOfDigits (cs : List Char) : Nat :=
  cs.foldl (fun a c => 10 * a + digitVal c) 0

/-- The characters matched by the regexp class for whitespace (ASCII part). -/
def isSpaceJS (c : Char) : Bool :=
  c == ' ' || c == '\t' || c == '\n' || c == '\r' || c == '\x0b' || c == '\x0c'

/-- Model of `String.prototype.trim()`: strip whitespace from both ends. -/
def jsTrim (s : String) : String :=
  String.mk (((s.data.dropWhile isSpaceJS).reverse.dropWhile isSpaceJS).reverse)

/-- The rational denoted by an integral digit run and a fractional digit
run. -/
def ratOfDigits (ip fp : List Char) : ℚ :=
  (natOfDigits ip : ℚ) + (natOfDigits fp : ℚ) / (10 : ℚ) ^ fp.length

/-- Model of JavaScript `parseFloat` restricted to plain decimal literals:
leading whitespace is skipped, then an optional sign, digits and an optional
fractional part are read; `none` models `NaN` (no digits at all).  Exponent
forms are not modelled; the app only passes plain decimals. -/
def jsParseFloat (s : String) : Option ℚ :=
  let cs := s.data.dropWhile isSpaceJS
  let sc : ℚ × List Char :=
    match cs with
    | '-' :: r => (-1, r)
    | '+' :: r => (1, r)
    | _ => (1, cs)
  let ds := sc.2.takeWhile Char.isDigit
  let rest := sc.2.drop ds.length
  let fs : List Char :=
    match rest with
    | '.' :: r => r.takeWhile Char.isDigit
    | _ => []
  if ds.isEmpty && fs.isEmpty then none
  else some (sc.1 * ratOfDigits ds fs)

/-- Model of `manualPrice.replace(',', '.')`: a string (non-regexp) pattern
replaces only the first occurrence. -/
def replaceFirstChar : List Char → Char → Char → List Char
  | [], _, _ => []
  | c :: cs, a, b => if c = a then b :: cs else c :: replaceFirstChar cs a b

def jsReplaceFirst (s : String) (a b : Char) : String :=
  String.mk (replaceFirstChar s.data a b)

/-- Model of `name.split(' ')[0]`: the text before the first space character
(the whole string if it has no space). -/
def firstField (s : String) : String :=
  String.mk (s.data.takeWhile (fun c => c != ' '))

/-! ## The manual-size pattern

`manualSize.match(/(\d+(?:\.\d+)?)\s*([a-zA-Z]+)/)` — the leftmost match of
digits, an optional fraction, optional whitespace and a letter run. -/

def isAsciiAlpha (c : Char) : Bool :=
  ('a' ≤ c && c ≤ 'z') || ('A' ≤ c && c ≤ 'Z')

/-- One attempt of the size pattern anchored at the start of `cs`.  The only
backtracking the pattern could perform (dropping the optional fraction) never
changes the outcome: with the fraction present, the position after the plain
digit run holds a dot, which neither the whitespace class nor the letter
class accepts. -/
def sizeMatchAt (cs : List Char) : Option (ℚ × String) :=
  match cs.takeWhile Char.isDigit with
  | [] => none
  | d :: ds' =>
    let ds := d :: ds'
    let rest := cs.drop ds.length
    let fs : List Char :=
      match rest with
      | '.' :: r => r.takeWhile Char.isDigit
      | _ => []
    let rest2 := if fs.isEmpty then rest else rest.drop (fs.length + 1)
    match (rest2.dropWhile isSpaceJS).takeWhile isAsciiAlpha with
    | [] => none
    | c :: us' => some (ratOfDigits ds fs, String.mk (c :: us'))

/-- Leftmost-match scan of the size pattern. -/
def sizeMatchScan : List Char → Option (ℚ × String)
  | [] => none
  | c :: cs =>
    match sizeMatchAt (c :: cs) with
    | some r => some r
    | none => sizeMatchScan cs

def matchSize (s : String) : Option (ℚ × String) := sizeMatchScan s.data

/-! ## Cart store operations (`App` handlers) -/

/-- A cart item freshly created from an extracted record in
`handleFileChange`: fresh id, quantity 1, fields passed through. -/
def mkScannedCartItem (id : Nat) (r : ScannedItem) : CartItem :=
  { toScannedItem := r, id := id, quantity := 1 }

/-- `handleAddManualItem`: reject a blank name or price, reject an unparsable
price, read the optional size field through the size pattern, derive the
category from the text before the first space of the (raw) name, and prepend
the new quantity-1 item. -/
def handleAddManualItem (manualName manualPrice manualSize : String)
    (nextId : Nat) (prev : List CartItem) : List CartItem :=
  if jsTrim manualName = "" || jsTrim manualPrice = "" then prev
  else
    match jsParseFloat (jsReplaceFirst manualPrice ',' '.') with
    | none => prev
    | some priceValue =>
      let m : Option (ℚ × String) :=
        if jsTrim manualSize = "" then none else matchSize manualSize
      { productName := jsTrim manualName
        price := priceValue
        category := some (jsLower (firstField manualName))
        measureValue := m.map (·.1)
        measureUnit := m.map (fun p => jsLower p.2)
        id := nextId
        quantity := 1 } :: prev

/-- The constant aggregate error message of `handleFileChange`. -/
def batchErrorText : String := "Alguns arquivos não puderam ser processados."

def isOk : Except Unit ScannedItem → Bool
  | Except.ok _ => true
  | Except.error _ => false

/-- The `for` loop of `handleFileChange`: each file's analysis outcome is an
`Except` (the AI collaborator either returns a record or fails); successes
become fresh cart items in file order, any failure sets the error flag, and
processing continues with the next file. -/
def processBatch : List (Except Unit ScannedItem) → Nat → List CartItem × Bool
  | [], _ => ([], false)
  | Except.ok r :: rest, n =>
    let p := processBatch rest (n + 1)
    (mkScannedCartItem n r :: p.1, p.2)
  | Except.error _ :: rest, n =>
    let p := processBatch rest n
    (p.1, true)

/-- The whole app state the cart operations touch: the items array and the
fresh-identifier supply that models `uuidv4()`. -/
structure AppState where
  items : List CartItem
  nextId : Nat
deriving Repr

def initialState : AppState := ⟨[], 0⟩

/-- `handleFileChange` after the batch loop: the new items are prepended
(`setItems(prev => [...newItems, ...prev])`) and the error message, when some
file failed, is recorded once. -/
def handleFileChange (results : List (Except Unit ScannedItem)) (s : AppState) :
    AppState × Option String :=
  let p := processBatch results s.nextId
  (⟨p.1 ++ s.items, s.nextId + results.countP isOk⟩,
    if p.2 then some batchErrorText else none)

/-- `handleUpdateItem` specialised to a quantity update:
`prev.map(item => item.id === id ? { ...item, quantity } : item)`. -/
def updateQuantity (items : List CartItem) (id : Nat) (q : Nat) : List CartItem :=
  items.map fun e => if e.id = id then { e with quantity := q } else e

/-- `handleUpdateItem` specialised to the inline name edit. -/
def updateName (items : List CartItem) (id : Nat) (name : String) : List CartItem :=
  items.map fun e => if e.id = id then { e with productName := name } else e

/-- `handleRemoveItem`: `prev.filter(item => item.id !== id)`. -/
def removeItem (items : List CartItem) (id : Nat) : List CartItem :=
  items.filter fun e => e.id != id

/-- `handleIncrement` of the row displaying the entry with the given id. -/
def increment (items : List CartItem) (id : Nat) : List CartItem :=
  match items.find? (fun e => e.id == id) with
  | none => items
  | some it => updateQuantity items id (it.quantity + 1)

/-- `handleDecrement` of the row displaying the entry with the given id:
a quantity above 1 is decremented, otherwise the entry is removed. -/
def decrement (items : List CartItem) (id : Nat) : List CartItem :=
  match items.find? (fun e => e.id == id) with
  | none => items
  | some it =>
    if 1 < it.quantity then updateQuantity items id (it.quantity - 1)
    else removeItem items id

/-- The UI-reachable cart operations: adding via a scan batch or the manual
form, the quantity buttons, the inline name edit, explicit removal and
clearing. -/
inductive Op where
  | scanBatch (results : List (Except Unit ScannedItem))
  | manualAdd (name price size : String)
  | increment (id : Nat)
  | decrement (id : Nat)
  | remove (id : Nat)
  | editName (id : Nat) (name : String)
  | clear

def step (s : AppState) : Op → AppState
  | Op.scanBatch results => (handleFileChange results s).1
  | Op.manualAdd name price size =>
    ⟨handleAddManualItem name price size s.nextId s.items, s.nextId + 1⟩
  | Op.increment id => ⟨increment s.items id, s.nextId⟩
  | Op.decrement id => ⟨decrement s.items id, s.nextId⟩
  | Op.remove id => ⟨removeItem s.items id, s.nextId⟩
  | Op.editName id name => ⟨updateName s.items id name, s.nextId⟩
  | Op.clear => ⟨[], s.nextId⟩

def runOps (ops : List Op) : AppState := ops.foldl step initialState

/-- A partial cart-item update (`Partial<CartItem>`) over the fields the
store's Update operation may merge. -/
structure ItemPatch where
  productName : Option String := none
  price : Option ℚ := none
  quantity : Option Nat := none

def applyPatch (p : ItemPatch) (e : CartItem) : CartItem :=
  { e with
    productName := p.productName.getD e.productName
    price := p.price.getD e.price
    quantity := p.quantity.getD e.quantity }

/-- The store-level operation alphabet of the Totals claim:
Add, Update, Remove, Decrement. -/
inductive CartOp where
  | add (r : ScannedItem)
  | update (id : Nat) (p : ItemPatch)
  | remove (id : Nat)
  | decrement (id : Nat)

def stepCart (s : AppState) : CartOp → AppState
  | CartOp.add r => ⟨mkScannedCartItem s.nextId r :: s.items, s.nextId + 1⟩
  | CartOp.update id p =>
    ⟨s.items.map (fun e => if e.id = id then applyPatch p e else e), s.nextId⟩
  | CartOp.remove id => ⟨removeItem s.items id, s.nextId⟩
  | CartOp.decrement id => ⟨decrement s.items id, s.nextId⟩

def runCartOps (ops : List CartOp) : AppState := ops.foldl stepCart initialState

/-! ## Share text (`handleShareList`) -/

/-- Model of `Array.prototype.join('\n')`. -/
def joinNl : List String → String
  | [] => ""
  | [s] => s
  | s :: rest => s ++ "\n" ++ joinNl rest

/-- One line of the shared list:
`${item.quantity}x ${item.productName} - ${formatCurrency(item.price * item.quantity)}`.
The currency formatter (the external `Intl` collaborator) is a parameter. -/
def shareItemLine (fmt : ℚ → String) (i : CartItem) : String :=
  natToStr i.quantity ++ "x " ++ i.productName ++ " - " ++
    fmt (i.price * (i.quantity : ℚ))

def shareHeader : String := "🛒 *Lista SmartCart*"

/-- The final line of the share text. -/
def totalLine (fmt : ℚ → String) (items : List CartItem) : String :=
  "💰 *Total: " ++ fmt (totalCost items) ++ "*"

/-- The string the cart total display shows (`formatCurrency(totalCost)`). -/
def displayedTotal (fmt : ℚ → String) (items : List CartItem) : String :=
  fmt (totalCost items)

/-- The full share text of `handleShareList`. -/
def shareText (fmt : ℚ → String) (items : List CartItem) : String :=
  shareHeader ++ "\n\n" ++ joinNl (items.map (shareItemLine fmt)) ++
    "\n\n" ++ totalLine fmt items

/-- Splitting a character list at every newline. -/
def splitNl : List Char → List (List Char)
  | [] => [[]]
  | c :: cs =>
    if c = '\n' then [] :: splitNl cs
    else
      match splitNl cs with
      | [] => [[c]]
      | l :: ls => (c :: l) :: ls

/-- The lines of a text. -/
def textLines (t : String) : List String := (splitNl t.data).map String.mk

/-- The number read at the head of a line. -/
def parseLeadingNat (s : String) : Nat :=
  natOfDigits (s.data.takeWhile Char.isDigit)

/-- Re-reading the share text: the sum of the leading quantities of the item
lines (every line except the two header lines and the two trailing lines). -/
def parsedItemCount (t : String) : Nat :=
  ((((textLines t).drop 2).dropLast.dropLast).map parseLeadingNat).sum

/-- Re-reading the share text: its final line. -/
def parsedTotalText (t : String) : Option String :=
  (textLines t).getLast?

/-! ## Demonstration items (used by the witnesses) -/

/-- The rice example of the spec: price 10, 500 g. -/
def demoA : CartItem :=
  { productName := "A", price := 10, category := some "rice",
    measureValue := some 500, measureUnit := some "g", id := 0, quantity := 1 }

/-- The rice example of the spec: price 22, 1 kg. -/
def demoB : CartItem :=
  { productName := "B", price := 22, category := some "rice",
    measureValue := some 1, measureUnit := some "kg", id := 1, quantity := 1 }

/-- An entry with no package measure at all. -/
def demoNoMeasure : CartItem :=
  { productName := "N", price := 3, category := some "rice",
    measureValue := none, measureUnit := none, id := 2, quantity := 1 }

/-- An entry with a measure value but no unit. -/
def demoNoUnit : CartItem :=
  { productName := "U", price := 7, category := some "rice",
    measureValue := some 200, measureUnit := none, id := 3, quantity := 2 }

/-- A single cart entry worth 60 in total (for the budget example). -/
def demoSixty : CartItem :=
  { productName := "S", price := 60, category := none,
    measureValue := none, measureUnit := none, id := 4, quantity := 1 }

/-- The milk example: `Add(name="Milk", price=4.5)`. -/
def demoMilk : ScannedItem :=
  { productName := "Milk", price := 4.5 }

/-- An entry whose category differs from demoA's only in capitalization. -/
def demoRiceUpper : CartItem :=
  { productName := "R", price := 5, category := some "Rice",
    measureValue := some 100, measureUnit := some "g", id := 5, quantity := 1 }

/-- A constant stand-in for the external currency formatter, used by the
share-text witness. -/
def demoFmt : ℚ → String := fun _ => "RS"

/-! ## General lemmas about the comparison engine -/

theorem mem_groupPre {items : List CartItem} {key : String} {e : CartItem} :
    e ∈ groupPre items key ↔ e ∈ items ∧ hasMeasure e = true ∧ catKey e = key := by
  simp [groupPre, List.mem_filter, Bool.and_eq_true, beq_iff_eq, and_assoc]

theorem comparisonGroup_perm (items : List CartItem) (key : String) :
    comparisonGroup items key ~ groupPre items key :=
  List.perm_insertionSort priceOrder (groupPre items key)

theorem mem_comparisonGroup {items : List CartItem} {key : String} {e : CartItem} :
    e ∈ comparisonGroup items key ↔
      e ∈ items ∧ hasMeasure e = true ∧ catKey e = key := by
  rw [(comparisonGroup_perm items key).mem_iff, mem_groupPre]

theorem sorted_comparisonGroup (items : List CartItem) (key : String) :
    (comparisonGroup items key).Sorted priceOrder :=
  List.sorted_insertionSort priceOrder (groupPre items key)

/-- Stability of the stable sort, phrased through filters: restricting the
sorted list to any class of entries the order considers tied reproduces the
corresponding restriction of the input, in input order. -/
theorem filter_insertionSort_eq (p : CartItem → Bool)
    (hp : ∀ a b, p a = true → p b = true → priceOrder a b) (l : List CartItem) :
    (l.insertionSort priceOrder).filter p = l.filter p := by
  have hself : (l.filter p).filter p = l.filter p :=
    List.filter_eq_self.mpr fun a ha => (List.mem_filter.mp ha).2
  have hpw : (l.filter p).Pairwise priceOrder :=
    List.pairwise_of_forall_mem_list fun a ha b hb =>
      hp a b (List.mem_filter.mp ha).2 (List.mem_filter.mp hb).2
  have h1 : l.filter p <+ l.insertionSort priceOrder :=
    List.sublist_insertionSort hpw (List.filter_sublist l)
  have h2 : l.filter p <+ (l.insertionSort priceOrder).filter p := by
    have h3 := h1.filter p
    rwa [hself] at h3
  have hperm : (l.insertionSort priceOrder).filter p ~ l.filter p :=
    (List.perm_insertionSort priceOrder l).filter p
  exact (h2.eq_of_length hperm.length_eq.symm).symm

/-- `getBasePrice` in closed form: price divided by the measure value
(defaulted to 1 when absent or zero) scaled by 1000 exactly on the large
mass/volume units. -/
theorem getBasePrice_formula (e : CartItem) :
    getBasePrice e = e.price /
      ((match e.measureValue with
        | some v => if v = 0 then (1 : ℚ) else v
        | none => 1) *
       (if e.measureUnit = some "kg" ∨ e.measureUnit = some "l" then (1000 : ℚ) else 1)) := by
  unfold getBasePrice
  by_cases hk : e.measureUnit = some "kg"
  · have hl : ¬e.measureUnit = some "l" := by rw [hk]; decide
    simp [hk, hl]
  · by_cases hl : e.measureUnit = some "l"
    · simp [hk, hl]
    · simp [hk, hl]

/-- **C1** For every list of cart entries and every comparison-group key, the
group is sorted ascending by unit price (base price); the group is a
permutation of the filtered input entries in input order; the sort is stable,
so entries tied at any given unit price keep the order they have in the input
list (the order they were inserted into the group); the unit price of a group
member is its price divided by its (nonzero, present) measure value times
1000 exactly when the unit is "kg" or "l"; and the denominator's measure
value defaults to 1 when absent. -/
theorem c1_group_sorted_by_unit_price (items : List CartItem) (key : String) :
    ((comparisonGroup items key).Sorted fun a b => getBasePrice a ≤ getBasePrice b) ∧
    comparisonGroup items key ~ groupPre items key ∧
    (∀ c : ℚ, (comparisonGroup items key).filter (fun e => getBasePrice e == c) =
      (groupPre items key).filter (fun e => getBasePrice e == c)) ∧
    (∀ e ∈ comparisonGroup items key, ∃ v : ℚ, e.measureValue = some v ∧ v ≠ 0 ∧
      getBasePrice e = e.price /
        (v * (if e.measureUnit = some "kg" ∨ e.measureUnit = some "l" then (1000 : ℚ) else 1))) ∧
    (∀ e : CartItem, e.measureValue = none →
      getBasePrice e = e.price /
        (1 * (if e.measureUnit = some "kg" ∨ e.measureUnit = some "l" then (1000 : ℚ) else 1))) := by
  refine ⟨?_, comparisonGroup_perm items key, ?_, ?_, ?_⟩
  · exact (sorted_comparisonGroup items key).imp fun h => h
  · intro c
    refine filter_insertionSort_eq _ (fun a b ha hb => ?_) _
    have ha' : getBasePrice a = c := by simpa using ha
    have hb' : getBasePrice b = c := by simpa using hb
    show getBasePrice a ≤ getBasePrice b
    rw [ha', hb']
  · intro e he
    obtain ⟨-, hm, -⟩ := mem_comparisonGroup.mp he
    simp only [hasMeasure, Bool.and_eq_true] at hm
    obtain ⟨hv, -⟩ := hm
    match hmv : e.measureValue with
    | none => rw [hmv] at hv; exact absurd hv (by simp [qTruthy])
    | some v =>
      rw [hmv] at hv
      have hvne : v ≠ 0 := by simpa [qTruthy] using hv
      refine ⟨v, rfl, hvne, ?_⟩
      rw [getBasePrice_formula, hmv]
      simp [hvne]
  · intro e hmv
    rw [getBasePrice_formula, hmv]

/-- **C1 witness**: the engine at the concrete rice example. -/
theorem c1_witness :
    demoA ∈ comparisonGroup [demoB, demoA] "rice" ∧
    (∃ v : ℚ, demoA.measureValue = some v ∧ v ≠ 0 ∧
      getBasePrice demoA = demoA.price /
        (v * (if demoA.measureUnit = some "kg" ∨ demoA.measureUnit = some "l"
          then (1000 : ℚ) else 1))) ∧
    ((comparisonGroup [demoB, demoA] "rice").Sorted
      fun a b => getBasePrice a ≤ getBasePrice b) ∧
    getBasePrice demoNoMeasure = demoNoMeasure.price /
      (1 * (if demoNoMeasure.measureUnit = some "kg" ∨ demoNoMeasure.measureUnit = some "l"
        then (1000 : ℚ) else 1)) := by
  have hmem : demoA ∈ comparisonGroup [demoB, demoA] "rice" :=
    mem_comparisonGroup.mpr ⟨by decide, by decide, by decide⟩
  have h := c1_group_sorted_by_unit_price [demoB, demoA] "rice"
  exact ⟨hmem, h.2.2.2.1 demoA hmem, h.1, h.2.2.2.2 demoNoMeasure rfl⟩

/-! ## Lemmas about `bestValueIds` -/

/-- Identifiers are unique across the cart (they are fresh `uuidv4()` draws),
so equal ids identify equal entries. -/
theorem id_inj {items : List CartItem} (hnd : (items.map (·.id)).Nodup) :
    ∀ e ∈ items, ∀ f ∈ items, e.id = f.id → e = f :=
  fun _ he _ hf h => List.inj_on_of_nodup_map hnd he hf h

theorem key_mem_groupKeys {items : List CartItem} {e : CartItem}
    (he : e ∈ items) (hm : hasMeasure e = true) : catKey e ∈ groupKeys items := by
  unfold groupKeys
  rw [List.mem_dedup]
  exact List.mem_map_of_mem _ (List.mem_filter.mpr ⟨he, hm⟩)

theorem mem_bestValueIds {items : List CartItem} {i : Nat} :
    i ∈ bestValueIds items ↔
      ∃ key, 2 ≤ (comparisonGroup items key).length ∧
        ∃ b, (comparisonGroup items key).head? = some b ∧ b.id = i := by
  unfold bestValueIds
  rw [List.mem_filterMap]
  constructor
  · rintro ⟨k, hk, hfk⟩
    by_cases h2 : 2 ≤ (comparisonGroup items k).length
    · rw [if_pos h2] at hfk
      match hh : (comparisonGroup items k).head? with
      | none =>
        rw [hh, Option.map_none'] at hfk
        exact Option.noConfusion hfk
      | some b =>
        rw [hh, Option.map_some'] at hfk
        exact ⟨k, h2, b, hh, by simpa using hfk⟩
    · rw [if_neg h2] at hfk
      exact Option.noConfusion hfk
  · rintro ⟨k, h2, b, hh, hbi⟩
    have hb : b ∈ comparisonGroup items k :=
      List.mem_of_mem_head? (by rw [hh]; rfl)
    obtain ⟨hbitems, hbm, hbk⟩ := mem_comparisonGroup.mp hb
    refine ⟨k, hbk ▸ key_mem_groupKeys hbitems hbm, ?_⟩
    rw [if_pos h2, hh, Option.map_some', hbi]

/-- **C2** In every comparison group of size at least 2, the group's first
entry is flagged best value, it is the only flagged entry of the group, and
its unit price is a minimum of the group; a singleton group is never
flagged.  Identifiers are assumed distinct, as `uuidv4()` guarantees. -/
theorem c2_best_value_flag (items : List CartItem)
    (hnd : (items.map (·.id)).Nodup) (key : String) :
    (2 ≤ (comparisonGroup items key).length →
      ∃ b, (comparisonGroup items key).head? = some b ∧
        b.id ∈ bestValueIds items ∧
        (∀ e ∈ comparisonGroup items key, e.id ∈ bestValueIds items → e = b) ∧
        (∀ e ∈ comparisonGroup items key, getBasePrice b ≤ getBasePrice e)) ∧
    ((comparisonGroup items key).length = 1 →
      ∀ e ∈ comparisonGroup items key, e.id ∉ bestValueIds items) := by
  have huniq : ∀ e ∈ comparisonGroup items key, e.id ∈ bestValueIds items →
      ∃ b, (comparisonGroup items key).head? = some b ∧ e = b ∧
        2 ≤ (comparisonGroup items key).length := by
    intro e he hei
    obtain ⟨k', h2', b', hh', hbid⟩ := mem_bestValueIds.mp hei
    have hb' : b' ∈ comparisonGroup items k' :=
      List.mem_of_mem_head? (by rw [hh']; rfl)
    obtain ⟨heitems, -, hek⟩ := mem_comparisonGroup.mp he
    obtain ⟨hb'items, -, hb'k⟩ := mem_comparisonGroup.mp hb'
    have heb' : e = b' := id_inj hnd e heitems b' hb'items hbid.symm
    have hkk : k' = key := by rw [← hek, heb', hb'k]
    rw [hkk] at hh' h2'
    exact ⟨b', hh', heb', h2'⟩
  constructor
  · intro h2
    obtain ⟨b, t, hg⟩ : ∃ b t, comparisonGroup items key = b :: t := by
      cases hcg : comparisonGroup items key with
      | nil => rw [hcg] at h2; simp at h2
      | cons x xs => exact ⟨x, xs, rfl⟩
    have hhead : (comparisonGroup items key).head? = some b := by rw [hg]; rfl
    refine ⟨b, hhead, mem_bestValueIds.mpr ⟨key, h2, b, hhead, rfl⟩, ?_, ?_⟩
    · intro e he hei
      obtain ⟨b'', hh'', heb'', -⟩ := huniq e he hei
      rw [hhead] at hh''
      rw [heb'']
      exact (Option.some_injective _ hh'').symm
    · have hsorted := sorted_comparisonGroup items key
      rw [hg] at hsorted
      intro e he
      rw [hg, List.mem_cons] at he
      rcases he with rfl | he
      · exact le_refl _
      · exact (List.pairwise_cons.mp hsorted).1 e he
  · intro h1 e he hei
    obtain ⟨-, -, -, h2⟩ := huniq e he hei
    omega

/-- **C2 witness**: with the spec's rice entries the group has two members,
its head is entry A (price 10 for 500 g), and A is flagged. -/
theorem c2_witness :
    (([demoA, demoB].map (·.id)).Nodup) ∧
    2 ≤ (comparisonGroup [demoA, demoB] "rice").length ∧
    (∃ b, (comparisonGroup [demoA, demoB] "rice").head? = some b ∧
      b.id ∈ bestValueIds [demoA, demoB] ∧
      (∀ e ∈ comparisonGroup [demoA, demoB] "rice",
        e.id ∈ bestValueIds [demoA, demoB] → e = b) ∧
      (∀ e ∈ comparisonGroup [demoA, demoB] "rice", getBasePrice b ≤ getBasePrice e)) ∧
    (comparisonGroup [demoA, demoB] "rice").head? = some demoA := by
  have hnd : ([demoA, demoB].map (·.id)).Nodup := by decide
  have hord : priceOrder demoA demoB := by
    show getBasePrice demoA ≤ getBasePrice demoB
    simp [getBasePrice, demoA, demoB]
    norm_num
  have hpre : groupPre [demoA, demoB] "rice" = [demoA, demoB] := by decide
  have hcomp : comparisonGroup [demoA, demoB] "rice" = [demoA, demoB] := by
    rw [comparisonGroup, hpre]
    simp [List.insertionSort, List.orderedInsert, hord]
  have hlen : 2 ≤ (comparisonGroup [demoA, demoB] "rice").length := by
    rw [hcomp]; decide
  exact ⟨hnd, hlen, (c2_best_value_flag [demoA, demoB] hnd "rice").1 hlen,
    by rw [hcomp]; rfl⟩

/-- **C3** For positive measure values: an entry lacking its measure value or
its measure unit is in no comparison group, and an entry having both is in
the group of its (normalized) category and in no other group. -/
theorem c3_grouping_partition (items : List CartItem)
    (hpos : ∀ e ∈ items, ∀ v : ℚ, e.measureValue = some v → 0 < v) :
    (∀ e ∈ items, (e.measureValue = none ∨ sTruthy e.measureUnit = false) →
      ∀ key, e ∉ comparisonGroup items key) ∧
    (∀ e ∈ items, e.measureValue ≠ none → sTruthy e.measureUnit = true →
      e ∈ comparisonGroup items (catKey e) ∧
      ∀ key, e ∈ comparisonGroup items key → key = catKey e) := by
  constructor
  · intro e _ hlack key hmem
    obtain ⟨-, hm, -⟩ := mem_comparisonGroup.mp hmem
    simp only [hasMeasure, Bool.and_eq_true] at hm
    obtain ⟨hv, hu⟩ := hm
    rcases hlack with hnone | hufalse
    · rw [hnone] at hv
      exact absurd hv (by simp [qTruthy])
    · rw [hufalse] at hu
      exact Bool.noConfusion hu
  · intro e he hvne hu
    have hq : qTruthy e.measureValue = true := by
      match hmv : e.measureValue with
      | none => exact absurd hmv hvne
      | some v =>
        have hv0 : v ≠ 0 := (hpos e he v hmv).ne'
        simp [qTruthy, hv0]
    have hm : hasMeasure e = true := by
      simp [hasMeasure, hq, hu]
    exact ⟨mem_comparisonGroup.mpr ⟨he, hm, rfl⟩,
      fun _ hk => ((mem_comparisonGroup.mp hk).2.2).symm⟩

/-- **C3 witness**: an entry with no measure value and an entry with no unit
are excluded; the complete rice entry lands in the "rice" group. -/
theorem c3_witness :
    demoNoMeasure ∉ comparisonGroup [demoA, demoNoMeasure, demoNoUnit] "rice" ∧
    demoNoUnit ∉ comparisonGroup [demoA, demoNoMeasure, demoNoUnit] "rice" ∧
    demoA ∈ comparisonGroup [demoA, demoNoMeasure, demoNoUnit] (catKey demoA) ∧
    catKey demoA = "rice" := by
  have hpos : ∀ e ∈ [demoA, demoNoMeasure, demoNoUnit], ∀ v : ℚ,
      e.measureValue = some v → 0 < v := by
    intro e he v hv
    fin_cases he
    · have hv' : v = 500 := by simpa [demoA] using hv.symm
      rw [hv']; norm_num
    · exact absurd hv (by simp [demoNoMeasure])
    · have hv' : v = 200 := by simpa [demoNoUnit] using hv.symm
      rw [hv']; norm_num
  have h := c3_grouping_partition [demoA, demoNoMeasure, demoNoUnit] hpos
  exact ⟨h.1 demoNoMeasure (by decide) (Or.inl rfl) "rice",
    h.1 demoNoUnit (by decide) (Or.inr rfl) "rice",
    (h.2 demoA (by decide) (by decide) (by decide)).1,
    by decide⟩

/-- **C4 counterexample**: with the budget set to 0 and a single entry worth
60, the claim's remaining-budget formula gives `0 - 60 = -60`, but the code's
truthiness test on `budget` short-circuits and yields 0 (and the displayed
usage is 0 as well); the over-budget flag does regard the zero budget as
set.  So "the remaining budget equals budget − total cost" fails for a
set-but-zero budget. -/
theorem c4_counterexample :
    totalCost [demoSixty] = 60 ∧
    isOverBudget (some 0) [demoSixty] = true ∧
    remainingBudget (some 0) [demoSixty] = 0 ∧
    (0 : ℚ) - totalCost [demoSixty] = -60 ∧
    remainingBudget (some 0) [demoSixty] ≠ (0 : ℚ) - totalCost [demoSixty] := by
  have htc : totalCost [demoSixty] = 60 := by
    simp [totalCost, demoSixty]
  refine ⟨htc, ?_, ?_, ?_, ?_⟩
  · simp [isOverBudget, htc]
  · simp [remainingBudget]
  · rw [htc]; norm_num
  · rw [htc]
    simp [remainingBudget]

/-- **C4 amended** After every sequence of Add/Update/Remove/Decrement
operations: the total cost is the sum of price × quantity over the current
entries and the item count the sum of their quantities; the over-budget flag
holds exactly when a budget is set and exceeded; for a set, nonzero budget
the usage fraction is total/budget × 100 capped at 100 and the remaining
budget is budget − total; with the budget unset — or set to zero, which the
code's truthiness test treats the same — usage and remaining are 0. -/
theorem c4_totals (ops : List CartOp) (budget : Option ℚ) :
    totalCost (runCartOps ops).items =
      ((runCartOps ops).items.map (fun e => e.price * (e.quantity : ℚ))).sum ∧
    itemCount (runCartOps ops).items =
      ((runCartOps ops).items.map (·.quantity)).sum ∧
    (isOverBudget budget (runCartOps ops).items = true ↔
      ∃ b, budget = some b ∧ b < totalCost (runCartOps ops).items) ∧
    (∀ b : ℚ, budget = some b → b ≠ 0 →
      budgetPercentage budget (runCartOps ops).items =
        min (totalCost (runCartOps ops).items / b * 100) 100 ∧
      remainingBudget budget (runCartOps ops).items =
        b - totalCost (runCartOps ops).items) ∧
    ((budget = none ∨ budget = some 0) →
      budgetPercentage budget (runCartOps ops).items = 0 ∧
      remainingBudget budget (runCartOps ops).items = 0) := by
  refine ⟨rfl, rfl, ?_, ?_, ?_⟩
  · cases budget with
    | none => simp [isOverBudget]
    | some b => simp [isOverBudget]
  · intro b hb hb0
    subst hb
    simp [budgetPercentage, remainingBudget, hb0]
  · rintro (rfl | rfl)
    · simp [budgetPercentage, remainingBudget]
    · simp [budgetPercentage, remainingBudget]

/-- **C4 witness**: the spec's example — budget 50, a cart totalling 60 —
gives over-budget, displayed usage capped at 100 % and remaining −10. -/
theorem c4_witness :
    isOverBudget (some 50) (runCartOps [CartOp.add demoSixty.toScannedItem]).items = true ∧
    budgetPercentage (some 50) (runCartOps [CartOp.add demoSixty.toScannedItem]).items = 100 ∧
    remainingBudget (some 50) (runCartOps [CartOp.add demoSixty.toScannedItem]).items = -10 := by
  have h := c4_totals [CartOp.add demoSixty.toScannedItem] (some 50)
  have htc : totalCost (runCartOps [CartOp.add demoSixty.toScannedItem]).items = 60 := by
    simp [runCartOps, stepCart, initialState, mkScannedCartItem, totalCost, demoSixty]
  have hb := h.2.2.2.1 50 rfl (by norm_num)
  refine ⟨?_, ?_, ?_⟩
  · exact h.2.2.1.mpr ⟨50, rfl, by rw [htc]; norm_num⟩
  · rw [hb.1, htc]; norm_num [min_def]
  · rw [hb.2, htc]; norm_num

/-! ## Lemmas about the quantity buttons -/

/-- With distinct ids, the `find?` behind the decrement handler locates
exactly the entry carrying the id. -/
theorem find?_id_eq {items : List CartItem} (hnd : (items.map (·.id)).Nodup)
    {e : CartItem} (he : e ∈ items) :
    items.find? (fun x => x.id == e.id) = some e := by
  induction items with
  | nil => cases he
  | cons a rest ih =>
    by_cases hpa : a.id = e.id
    · have hae : a = e := id_inj hnd a (List.mem_cons_self a rest) e he hpa
      rw [List.find?_cons_of_pos rest (by simp [hpa])]
      rw [hae]
    · have hne : e ≠ a := fun h => hpa (by rw [h])
      have he' : e ∈ rest := by
        rcases List.mem_cons.mp he with h | h
        · exact absurd h hne
        · exact h
      have hnd' : (rest.map (·.id)).Nodup :=
        (List.nodup_cons.mp (by simpa using hnd)).2
      rw [List.find?_cons_of_neg rest (by simp [hpa])]
      exact ih hnd' he'

/-- With distinct ids, filtering an id away is erasing its entry. -/
theorem removeItem_eq_erase {items : List CartItem}
    (hnd : (items.map (·.id)).Nodup) {e : CartItem} (he : e ∈ items) :
    removeItem items e.id = items.erase e := by
  induction items with
  | nil => cases he
  | cons a rest ih =>
    have hnodupid : a.id ∉ rest.map (·.id) ∧ (rest.map (·.id)).Nodup :=
      List.nodup_cons.mp (by simpa using hnd)
    by_cases hae : a = e
    · subst hae
      rw [List.erase_cons_head]
      unfold removeItem
      rw [List.filter_cons]
      simp only [bne_self_eq_false, Bool.false_eq_true, if_false]
      apply List.filter_eq_self.mpr
      intro x hx
      have hxne : x.id ≠ a.id := by
        intro hxy
        exact hnodupid.1 (hxy ▸ List.mem_map_of_mem _ hx)
      simpa [bne_iff_ne] using hxne
    · have he' : e ∈ rest := by
        rcases List.mem_cons.mp he with h | h
        · exact absurd h.symm hae
        · exact h
      have haid : a.id ≠ e.id := fun h =>
        hae (id_inj hnd a (List.mem_cons_self a rest) e he h)
      rw [List.erase_cons_tail (by simpa using hae)]
      unfold removeItem
      rw [List.filter_cons]
      simp only [bne_iff_ne, ne_eq, haid, not_false_eq_true, if_true]
      unfold removeItem at ih
      rw [ih hnodupid.2 he']

/-- **C5** With distinct ids, decrementing the entry with a given id removes
it when its quantity is 1 (leaving every other entry in place, in order) and
otherwise lowers exactly its quantity by one, keeping the entry; in both
cases every other entry is untouched. -/
theorem c5_decrement (items : List CartItem) (e : CartItem)
    (hnd : (items.map (·.id)).Nodup) (he : e ∈ items) :
    (e.quantity = 1 →
      decrement items e.id = items.erase e ∧
      e ∉ decrement items e.id ∧
      (∀ x ∈ items, x ≠ e → x ∈ decrement items e.id)) ∧
    (1 < e.quantity →
      decrement items e.id =
        items.map (fun x => if x = e then { x with quantity := x.quantity - 1 } else x) ∧
      { e with quantity := e.quantity - 1 } ∈ decrement items e.id ∧
      (∀ x ∈ items, x ≠ e → x ∈ decrement items e.id)) := by
  have hfind : items.find? (fun x => x.id == e.id) = some e := find?_id_eq hnd he
  have hnodup : items.Nodup := List.Nodup.of_map _ hnd
  constructor
  · intro hq1
    have hdec : decrement items e.id = items.erase e := by
      unfold decrement
      rw [hfind]
      show (if 1 < e.quantity then updateQuantity items e.id (e.quantity - 1)
        else removeItem items e.id) = items.erase e
      rw [if_neg (by omega), removeItem_eq_erase hnd he]
    refine ⟨hdec, ?_, ?_⟩
    · rw [hdec]
      exact hnodup.not_mem_erase
    · intro x hx hxe
      rw [hdec]
      exact (List.mem_erase_of_ne hxe).mpr hx
  · intro hq1
    have hdec : decrement items e.id =
        items.map (fun x => if x = e then { x with quantity := x.quantity - 1 } else x) := by
      unfold decrement
      rw [hfind]
      show (if 1 < e.quantity then updateQuantity items e.id (e.quantity - 1)
        else removeItem items e.id) =
        items.map (fun x => if x = e then { x with quantity := x.quantity - 1 } else x)
      rw [if_pos hq1]
      · unfold updateQuantity
        apply List.map_congr_left
        intro x hx
        by_cases hxe : x = e
        · subst hxe
          simp
        · have hxid : x.id ≠ e.id := fun h => hxe (id_inj hnd x hx e he h)
          simp [hxid, hxe]
    refine ⟨hdec, ?_, ?_⟩
    · rw [hdec]
      exact List.mem_map.mpr ⟨e, he, by rw [if_pos rfl]⟩
    · intro x hx hxe
      rw [hdec]
      exact List.mem_map.mpr ⟨x, hx, by rw [if_neg hxe]⟩

/-- **C5 witness**: `Add(name="Milk", price=4.5)` then decrementing that
entry (quantity 1) leaves the cart empty. -/
theorem c5_witness :
    (([mkScannedCartItem 0 demoMilk].map (·.id)).Nodup) ∧
    (mkScannedCartItem 0 demoMilk).quantity = 1 ∧
    decrement [mkScannedCartItem 0 demoMilk] (mkScannedCartItem 0 demoMilk).id = [] := by
  have hnd : (([mkScannedCartItem 0 demoMilk]).map (·.id)).Nodup := by simp
  have h := (c5_decrement [mkScannedCartItem 0 demoMilk] (mkScannedCartItem 0 demoMilk)
    hnd (List.mem_cons_self _ _)).1 rfl
  refine ⟨hnd, rfl, ?_⟩
  rw [h.1, List.erase_cons_head]

/-! ## The quantity invariant -/

/-- Every item created by the scan batch carries quantity 1. -/
theorem processBatch_quantity (rs : List (Except Unit ScannedItem)) :
    ∀ (n : Nat), ∀ e ∈ (processBatch rs n).1, e.quantity = 1 := by
  induction rs with
  | nil =>
    intro n e he
    simp [processBatch] at he
  | cons r rest ih =>
    intro n e he
    cases r with
    | ok v =>
      simp only [processBatch] at he
      rcases List.mem_cons.mp he with rfl | he'
      · rfl
      · exact ih (n + 1) e he'
    | error u =>
      simp only [processBatch] at he
      exact ih n e he

/-- Quantities reached through a quantity update: the written value or a
value already present. -/
theorem mem_updateQuantity {items : List CartItem} {id : Nat} {q : Nat} {e : CartItem}
    (he : e ∈ updateQuantity items id q) : e.quantity = q ∨ e ∈ items := by
  unfold updateQuantity at he
  obtain ⟨x, hx, hfx⟩ := List.mem_map.mp he
  by_cases hxid : x.id = id
  · rw [if_pos hxid] at hfx
    left
    rw [← hfx]
  · rw [if_neg hxid] at hfx
    right
    rw [← hfx]
    exact hx

/-- A name edit does not touch quantities. -/
theorem mem_updateName {items : List CartItem} {id : Nat} {nm : String} {e : CartItem}
    (he : e ∈ updateName items id nm) : ∃ x ∈ items, e.quantity = x.quantity := by
  unfold updateName at he
  obtain ⟨x, hx, hfx⟩ := List.mem_map.mp he
  by_cases hxid : x.id = id
  · rw [if_pos hxid] at hfx
    exact ⟨x, hx, by rw [← hfx]⟩
  · rw [if_neg hxid] at hfx
    exact ⟨x, hx, by rw [← hfx]⟩

theorem mem_removeItem {items : List CartItem} {id : Nat} {e : CartItem}
    (he : e ∈ removeItem items id) : e ∈ items :=
  List.mem_of_mem_filter he

/-- The invariant of claim C6: every entry present has quantity at least 1. -/
def qtyInv (s : AppState) : Prop := ∀ e ∈ s.items, 1 ≤ e.quantity

theorem step_preserves_qtyInv (s : AppState) (op : Op) (h : qtyInv s) :
    qtyInv (step s op) := by
  cases op with
  | scanBatch results =>
    intro e he
    simp only [step, handleFileChange] at he
    rcases List.mem_append.mp he with h1 | h2
    · exact le_of_eq (processBatch_quantity results s.nextId e h1).symm
    · exact h e h2
  | manualAdd name price size =>
    intro e he
    simp only [step] at he
    unfold handleAddManualItem at he
    split at he
    · exact h e he
    · split at he
      · exact h e he
      · rcases List.mem_cons.mp he with rfl | he'
        · exact le_refl 1
        · exact h e he'
  | increment id =>
    intro e he
    simp only [step] at he
    unfold increment at he
    split at he
    · exact h e he
    · rcases mem_updateQuantity he with hq | hmem
      · omega
      · exact h e hmem
  | decrement id =>
    intro e he
    simp only [step] at he
    unfold decrement at he
    split at he
    · exact h e he
    · rename_i it hfind
      split at he
      · rename_i hlt
        rcases mem_updateQuantity he with hq | hmem
        · omega
        · exact h e hmem
      · exact h e (mem_removeItem he)
  | remove id =>
    intro e he
    simp only [step] at he
    exact h e (mem_removeItem he)
  | editName id name =>
    intro e he
    simp only [step] at he
    obtain ⟨x, hx, hq⟩ := mem_updateName he
    rw [hq]
    exact h x hx
  | clear =>
    intro e he
    simp only [step] at he
    exact absurd he (List.not_mem_nil e)

theorem foldl_preserves_qtyInv (ops : List Op) :
    ∀ s, qtyInv s → qtyInv (ops.foldl step s) := by
  induction ops with
  | nil => exact fun s h => h
  | cons op rest ih => exact fun s h => ih _ (step_preserves_qtyInv s op h)

/-- **C6** Starting from the empty cart, after any sequence of the
UI-reachable operations every entry present has quantity at least 1; no
reachable state stores a zero or negative quantity. -/
theorem c6_quantity_invariant (ops : List Op) :
    ∀ e ∈ (runOps ops).items, 1 ≤ e.quantity :=
  foldl_preserves_qtyInv ops initialState (fun e he => absurd he (List.not_mem_nil e))

/-- **C6 witness**: one scanned milk entry sits in the cart with
quantity 1 ≥ 1. -/
theorem c6_witness :
    mkScannedCartItem 0 demoMilk ∈
      (runOps [Op.scanBatch [Except.ok demoMilk]]).items ∧
    1 ≤ (mkScannedCartItem 0 demoMilk).quantity := by
  have hitems : (runOps [Op.scanBatch [Except.ok demoMilk]]).items =
      [mkScannedCartItem 0 demoMilk] := rfl
  have hmem : mkScannedCartItem 0 demoMilk ∈
      (runOps [Op.scanBatch [Except.ok demoMilk]]).items := by
    rw [hitems]
    exact List.mem_cons_self _ _
  exact ⟨hmem, c6_quantity_invariant [Op.scanBatch [Except.ok demoMilk]] _ hmem⟩

/-- **C7 counterexample**: the categories "Rice" and "rice" differ as exact
strings, yet both entries land in the same comparison group "rice" — the
lower-casing and underscore substitution are part of the grouping key, not
only of the display. -/
theorem c7_counterexample :
    demoRiceUpper.category ≠ demoA.category ∧
    demoRiceUpper ∈ comparisonGroup [demoRiceUpper, demoA] "rice" ∧
    demoA ∈ comparisonGroup [demoRiceUpper, demoA] "rice" := by
  refine ⟨by decide, ?_, ?_⟩
  · exact mem_comparisonGroup.mpr ⟨by decide, by decide, by decide⟩
  · exact mem_comparisonGroup.mpr ⟨by decide, by decide, by decide⟩

/-- **C7 amended** Two entries share a comparison group exactly when both
carry a usable measure and their *normalized* categories (lower-cased,
underscores replaced by spaces, missing or empty mapped to "outros")
coincide; exact string equality of the raw categories is not required. -/
theorem c7_amended_grouping (items : List CartItem) (a b : CartItem) :
    (∃ key, a ∈ comparisonGroup items key ∧ b ∈ comparisonGroup items key) ↔
      a ∈ items ∧ b ∈ items ∧ hasMeasure a = true ∧ hasMeasure b = true ∧
        catKey a = catKey b := by
  constructor
  · rintro ⟨key, ha, hb⟩
    obtain ⟨ha1, ha2, ha3⟩ := mem_comparisonGroup.mp ha
    obtain ⟨hb1, hb2, hb3⟩ := mem_comparisonGroup.mp hb
    exact ⟨ha1, hb1, ha2, hb2, by rw [ha3, hb3]⟩
  · rintro ⟨ha1, hb1, ha2, hb2, hk⟩
    exact ⟨catKey a, mem_comparisonGroup.mpr ⟨ha1, ha2, rfl⟩,
      mem_comparisonGroup.mpr ⟨hb1, hb2, hk.symm⟩⟩

/-- **C7 witness**: the amended criterion at the concrete pair. -/
theorem c7_witness :
    (demoRiceUpper ∈ [demoRiceUpper, demoA] ∧ demoA ∈ [demoRiceUpper, demoA] ∧
      hasMeasure demoRiceUpper = true ∧ hasMeasure demoA = true ∧
      catKey demoRiceUpper = catKey demoA) ∧
    (∃ key, demoRiceUpper ∈ comparisonGroup [demoRiceUpper, demoA] key ∧
      demoA ∈ comparisonGroup [demoRiceUpper, demoA] key) :=
  ⟨by refine ⟨by decide, by decide, by decide, by decide, by decide⟩,
    (c7_amended_grouping [demoRiceUpper, demoA] demoRiceUpper demoA).mpr
      ⟨by decide, by decide, by decide, by decide, by decide⟩⟩

/-! ## The scan batch -/

/-- The items the batch loop collects are exactly the successful analysis
results, in file order. -/
theorem processBatch_items (rs : List (Except Unit ScannedItem)) :
    ∀ n : Nat, (processBatch rs n).1.map (·.toScannedItem) =
      rs.filterMap (fun r => match r with
        | Except.ok v => some v
        | Except.error _ => none) := by
  induction rs with
  | nil => intro n; rfl
  | cons r rest ih =>
    intro n
    cases r with
    | ok v =>
      simp only [processBatch, List.map_cons, List.filterMap_cons]
      rw [ih (n + 1)]
      rfl
    | error u =>
      simp only [processBatch, List.filterMap_cons]
      exact ih n

/-- The error flag of the batch loop is set exactly when some file failed. -/
theorem processBatch_err (rs : List (Except Unit ScannedItem)) :
    ∀ n : Nat, (processBatch rs n).2 = rs.any (fun r => !(isOk r)) := by
  induction rs with
  | nil => intro n; rfl
  | cons r rest ih =>
    intro n
    cases r with
    | ok v =>
      simp only [processBatch, List.any_cons, isOk]
      rw [ih (n + 1)]
      rfl
    | error u =>
      simp only [processBatch, List.any_cons, isOk]
      rfl

/-- **C8** A failing file neither aborts the batch nor loses the successful
files: the new cart is the fresh quantity-1 items of exactly the successful
results (in file order) prepended to the old cart, and a single aggregate
error message is recorded exactly when at least one file failed. -/
theorem c8_batch_failures_do_not_abort (results : List (Except Unit ScannedItem))
    (s : AppState) :
    ((handleFileChange results s).1.items =
      (processBatch results s.nextId).1 ++ s.items) ∧
    ((processBatch results s.nextId).1.map (·.toScannedItem) =
      results.filterMap (fun r => match r with
        | Except.ok v => some v
        | Except.error _ => none)) ∧
    (∀ e ∈ (processBatch results s.nextId).1, e.quantity = 1) ∧
    ((handleFileChange results s).2 =
      if results.any (fun r => !(isOk r)) then some batchErrorText else none) ∧
    (∀ i : Nat, ∀ r : ScannedItem, results[i]? = some (Except.ok r) →
      ∃ e ∈ (handleFileChange results s).1.items,
        e.toScannedItem = r ∧ e.quantity = 1) := by
  refine ⟨rfl, processBatch_items results s.nextId,
    processBatch_quantity results s.nextId, ?_, ?_⟩
  · show (if (processBatch results s.nextId).2 then some batchErrorText else none) =
      if results.any (fun r => !(isOk r)) then some batchErrorText else none
    rw [processBatch_err results s.nextId]
  · intro i r hir
    have hmem : Except.ok r ∈ results := List.getElem?_mem hir
    have hr : r ∈ results.filterMap (fun r => match r with
        | Except.ok v => some v
        | Except.error _ => none) := by
      rw [List.mem_filterMap]
      exact ⟨Except.ok r, hmem, rfl⟩
    rw [← processBatch_items results s.nextId] at hr
    obtain ⟨e, he, hse⟩ := List.mem_map.mp hr
    have h1 : (handleFileChange results s).1.items =
        (processBatch results s.nextId).1 ++ s.items := rfl
    refine ⟨e, ?_, hse, processBatch_quantity results s.nextId e he⟩
    rw [h1]
    exact List.mem_append_left _ he

/-- **C8 witness**: a batch whose first file fails and whose second succeeds
still adds the second file's item, and the single aggregate message is
recorded. -/
theorem c8_witness :
    (([Except.error (), Except.ok demoMilk] :
      List (Except Unit ScannedItem))[1]? = some (Except.ok demoMilk)) ∧
    (∃ e ∈ (handleFileChange [Except.error (), Except.ok demoMilk] initialState).1.items,
      e.toScannedItem = demoMilk ∧ e.quantity = 1) ∧
    (handleFileChange [Except.error (), Except.ok demoMilk] initialState).2 =
      some batchErrorText := by
  have h := c8_batch_failures_do_not_abort [Except.error (), Except.ok demoMilk] initialState
  refine ⟨rfl, h.2.2.2.2 1 demoMilk rfl, ?_⟩
  rw [h.2.2.2.1]
  rfl

/-! ## Reading the share text back -/

theorem digitVal_digitChar {d : Nat} (h : d < 10) : digitVal (digitChar d) = d := by
  interval_cases d <;> rfl

theorem isDigit_digitChar {d : Nat} (h : d < 10) : (digitChar d).isDigit = true := by
  interval_cases d <;> rfl

theorem isDigit_natToDigits (n : Nat) : ∀ c ∈ natToDigits n, c.isDigit = true := by
  induction n using Nat.strong_induction_on with
  | _ n ih =>
    intro c hc
    rw [natToDigits] at hc
    split at hc
    · rename_i h
      rw [List.mem_singleton] at hc
      rw [hc]
      exact isDigit_digitChar h
    · rename_i h
      rcases List.mem_append.mp hc with h1 | h2
      · exact ih (n / 10) (Nat.div_lt_self (by omega) (by omega)) c h1
      · rw [List.mem_singleton] at h2
        rw [h2]
        exact isDigit_digitChar (Nat.mod_lt n (by omega))

theorem natOfDigits_append_singleton (cs : List Char) (c : Char) :
    natOfDigits (cs ++ [c]) = 10 * natOfDigits cs + digitVal c := by
  unfold natOfDigits
  rw [List.foldl_append]
  rfl

/-- Rendering a number and reading the digits back is the identity. -/
theorem natOfDigits_natToDigits (n : Nat) : natOfDigits (natToDigits n) = n := by
  induction n using Nat.strong_induction_on with
  | _ n ih =>
    rw [natToDigits]
    split
    · rename_i h
      show natOfDigits [digitChar n] = n
      unfold natOfDigits
      simp [List.foldl, digitVal_digitChar h]
    · rename_i h
      rw [natOfDigits_append_singleton,
        ih (n / 10) (Nat.div_lt_self (by omega) (by omega)),
        digitVal_digitChar (Nat.mod_lt n (by omega))]
      omega

theorem takeWhile_append_cons (p : Char → Bool) (l : List Char) (c : Char) (r : List Char)
    (hl : ∀ x ∈ l, p x = true) (hc : p c = false) :
    (l ++ c :: r).takeWhile p = l := by
  induction l with
  | nil => simp [List.takeWhile_cons, hc]
  | cons a as ih =>
    have ha := hl a (List.mem_cons_self a as)
    simp only [List.cons_append, List.takeWhile_cons, ha, if_true]
    rw [ih fun x hx => hl x (List.mem_cons_of_mem a hx)]

theorem data_shareItemLine (fmt : ℚ → String) (i : CartItem) :
    (shareItemLine fmt i).data =
      natToDigits i.quantity ++ 'x' :: ' ' :: (i.productName.data ++
        ' ' :: '-' :: ' ' :: (fmt (i.price * (i.quantity : ℚ))).data) := by
  unfold shareItemLine natToStr
  simp only [String.data_append]
  simp [List.append_assoc]

/-- The leading number of a rendered item line is the entry's quantity. -/
theorem parseLeadingNat_shareItemLine (fmt : ℚ → String) (i : CartItem) :
    parseLeadingNat (shareItemLine fmt i) = i.quantity := by
  unfold parseLeadingNat
  rw [data_shareItemLine,
    takeWhile_append_cons _ _ _ _ (isDigit_natToDigits i.quantity) (by decide),
    natOfDigits_natToDigits]

theorem splitNl_cons_newline (cs : List Char) :
    splitNl ('\n' :: cs) = [] :: splitNl cs := by
  simp [splitNl]

theorem splitNl_of_not_mem {l : List Char} (h : '\n' ∉ l) : splitNl l = [l] := by
  induction l with
  | nil => rfl
  | cons c cs ih =>
    have hc : c ≠ '\n' := fun hh => h (hh ▸ List.mem_cons_self c cs)
    have hcs : '\n' ∉ cs := fun hh => h (List.mem_cons_of_mem c hh)
    simp only [splitNl, if_neg hc, ih hcs]

theorem splitNl_append {l : List Char} (r : List Char) (h : '\n' ∉ l) :
    splitNl (l ++ '\n' :: r) = l :: splitNl r := by
  induction l with
  | nil => simp [splitNl]
  | cons c cs ih =>
    have hc : c ≠ '\n' := fun hh => h (hh ▸ List.mem_cons_self c cs)
    have hcs : '\n' ∉ cs := fun hh => h (List.mem_cons_of_mem c hh)
    simp only [List.cons_append, splitNl, if_neg hc, List.append_eq]
    rw [ih hcs]

/-- Splitting a newline-joined list of newline-free lines (followed by a
newline and a tail) recovers the lines. -/
theorem splitNl_joinNl (ls : List String) (hne : ls ≠ [])
    (h : ∀ s ∈ ls, '\n' ∉ s.data) (t : List Char) :
    splitNl ((joinNl ls).data ++ '\n' :: t) = ls.map (·.data) ++ splitNl t := by
  induction ls with
  | nil => exact absurd rfl hne
  | cons s rest ih =>
    cases rest with
    | nil =>
      show splitNl (s.data ++ '\n' :: t) = [s.data] ++ splitNl t
      rw [splitNl_append t (h s (List.mem_cons_self s []))]
      rfl
    | cons s2 rest2 =>
      have hj : joinNl (s :: s2 :: rest2) = s ++ "\n" ++ joinNl (s2 :: rest2) := rfl
      rw [hj]
      simp only [String.data_append]
      have hassoc : s.data ++ ['\n'] ++ (joinNl (s2 :: rest2)).data ++ '\n' :: t =
          s.data ++ '\n' :: ((joinNl (s2 :: rest2)).data ++ '\n' :: t) := by
        simp
      rw [hassoc, splitNl_append _ (h s (List.mem_cons_self s _)),
        ih (by simp) (fun x hx => h x (List.mem_cons_of_mem s hx))]
      rfl

/-- No rendered item line contains a newline, provided the product names and
the formatter's output do not. -/
theorem shareItemLine_no_newline (fmt : ℚ → String) (i : CartItem)
    (hn : '\n' ∉ i.productName.data) (hf : ∀ q : ℚ, '\n' ∉ (fmt q).data) :
    '\n' ∉ (shareItemLine fmt i).data := by
  rw [data_shareItemLine]
  intro hmem
  simp only [List.mem_append, List.mem_cons] at hmem
  rcases hmem with h1 | h2
  · have := isDigit_natToDigits i.quantity '\n' h1
    exact absurd this (by decide)
  · rcases h2 with h | h | h
    · exact absurd h (by decide)
    · exact absurd h (by decide)
    · rcases h with h | h
      · exact hn h
      · rcases h with h | h | h
        · exact absurd h (by decide)
        · exact absurd h (by decide)
        · rcases h with h | h
          · exact absurd h (by decide)
          · exact hf _ h

theorem totalLine_no_newline (fmt : ℚ → String) (items : List CartItem)
    (hf : ∀ q : ℚ, '\n' ∉ (fmt q).data) : '\n' ∉ (totalLine fmt items).data := by
  unfold totalLine
  simp only [String.data_append]
  intro hmem
  simp only [List.mem_append] at hmem
  rcases hmem with (h | h) | h
  · exact absurd h (by decide)
  · exact hf _ h
  · exact absurd h (by decide)

/-- The line structure of the share text: the header, a blank line, one line
per item in cart order, a blank line, and the total line. -/
theorem splitNl_shareText (fmt : ℚ → String) (items : List CartItem)
    (hne : items ≠ [])
    (hn : ∀ i ∈ items, '\n' ∉ i.productName.data)
    (hf : ∀ q : ℚ, '\n' ∉ (fmt q).data) :
    splitNl (shareText fmt items).data =
      shareHeader.data :: [] ::
        (items.map (fun i => (shareItemLine fmt i).data) ++
          [[], (totalLine fmt items).data]) := by
  have hlines : ∀ s ∈ items.map (shareItemLine fmt), '\n' ∉ s.data := by
    intro s hs
    obtain ⟨i, hi, rfl⟩ := List.mem_map.mp hs
    exact shareItemLine_no_newline fmt i (hn i hi) hf
  unfold shareText
  simp only [String.data_append]
  have hassoc : shareHeader.data ++ ['\n', '\n'] ++
      (joinNl (items.map (shareItemLine fmt))).data ++ ['\n', '\n'] ++
      (totalLine fmt items).data =
      shareHeader.data ++ '\n' ::
        ('\n' :: ((joinNl (items.map (shareItemLine fmt))).data ++
          '\n' :: ('\n' :: (totalLine fmt items).data))) := by
    simp
  rw [hassoc, splitNl_append _ (by decide), splitNl_cons_newline,
    splitNl_joinNl (items.map (shareItemLine fmt)) (by simpa using hne) hlines,
    splitNl_cons_newline, splitNl_of_not_mem (totalLine_no_newline fmt items hf),
    List.map_map]
  rfl

/-- **C9** For a non-empty cart (product names and the formatter's output
being single-line), re-reading the exported share text reproduces the item
count exactly — the leading quantities of the item lines sum to the cart's
item count — and the final line carries exactly the total string the cart's
totals display shows. -/
theorem c9_share_round_trip (fmt : ℚ → String) (items : List CartItem)
    (hne : items ≠ [])
    (hn : ∀ i ∈ items, '\n' ∉ i.productName.data)
    (hf : ∀ q : ℚ, '\n' ∉ (fmt q).data) :
    parsedItemCount (shareText fmt items) = itemCount items ∧
    parsedTotalText (shareText fmt items) = some (totalLine fmt items) ∧
    totalLine fmt items = "💰 *Total: " ++ displayedTotal fmt items ++ "*" := by
  have hsplit := splitNl_shareText fmt items hne hn hf
  have hlines : textLines (shareText fmt items) =
      shareHeader :: "" ::
        (items.map (shareItemLine fmt) ++ ["", totalLine fmt items]) := by
    unfold textLines
    rw [hsplit]
    simp [List.map_map]
  refine ⟨?_, ?_, rfl⟩
  · unfold parsedItemCount
    rw [hlines]
    simp only [List.drop_succ_cons, List.drop_zero]
    have hconcat : items.map (shareItemLine fmt) ++ ["", totalLine fmt items] =
        (items.map (shareItemLine fmt) ++ [""]) ++ [totalLine fmt items] := by
      simp
    rw [hconcat, List.dropLast_concat, List.dropLast_concat, List.map_map]
    have hq : ∀ i ∈ items, (parseLeadingNat ∘ shareItemLine fmt) i = i.quantity :=
      fun i _ => parseLeadingNat_shareItemLine fmt i
    rw [List.map_congr_left hq]
    rfl
  · unfold parsedTotalText
    rw [hlines]
    have hconcat : shareHeader :: "" ::
        (items.map (shareItemLine fmt) ++ ["", totalLine fmt items]) =
        (shareHeader :: "" :: (items.map (shareItemLine fmt) ++ [""])) ++
          [totalLine fmt items] := by
      simp
    rw [hconcat, List.getLast?_concat]

/-- **C9 witness**: the milk cart shared through a constant formatter. -/
theorem c9_witness :
    ([mkScannedCartItem 0 demoMilk] ≠ ([] : List CartItem)) ∧
    parsedItemCount (shareText demoFmt [mkScannedCartItem 0 demoMilk]) =
      itemCount [mkScannedCartItem 0 demoMilk] ∧
    parsedTotalText (shareText demoFmt [mkScannedCartItem 0 demoMilk]) =
      some (totalLine demoFmt [mkScannedCartItem 0 demoMilk]) := by
  have h := c9_share_round_trip demoFmt [mkScannedCartItem 0 demoMilk]
    (by simp)
    (by
      intro i hi
      rcases List.mem_cons.mp hi with rfl | hi'
      · decide
      · exact absurd hi' (List.not_mem_nil i))
    (by
      intro q
      show '\n' ∉ ("RS" : String).data
      decide)
  exact ⟨by simp, h.1, h.2.1⟩

/-! ## The manual entry -/

/-- A nonempty character list yields a nonempty string. -/
theorem string_mk_ne_empty {l : List Char} (h : ¬(l.isEmpty = true)) :
    String.mk l ≠ "" := by
  intro hcon
  have hl : l = [] := congrArg String.data hcon
  rw [hl] at h
  exact h rfl

/-- A successful size match always captures at least one letter. -/
theorem sizeMatchAt_unit_ne_empty {cs : List Char} {v : ℚ} {u : String}
    (h : sizeMatchAt cs = some (v, u)) : u ≠ "" := by
  simp only [sizeMatchAt] at h
  repeat' split at h
  all_goals try exact Option.noConfusion h
  all_goals
    have hpair := Option.some.inj h
    cases hpair
    exact string_mk_ne_empty (by simp)

theorem sizeMatchScan_unit_ne_empty {v : ℚ} {u : String} :
    ∀ cs : List Char, sizeMatchScan cs = some (v, u) → u ≠ "" := by
  intro cs
  induction cs with
  | nil => intro h; exact Option.noConfusion h
  | cons c cs ih =>
    intro h
    unfold sizeMatchScan at h
    cases hat : sizeMatchAt (c :: cs) with
    | some r =>
      rw [hat] at h
      have h' : (some r : Option (ℚ × String)) = some (v, u) := h
      obtain rfl := Option.some.inj h'
      exact sizeMatchAt_unit_ne_empty hat
    | none =>
      rw [hat] at h
      exact ih h

theorem matchSize_unit_ne_empty {s : String} {v : ℚ} {u : String}
    (h : matchSize s = some (v, u)) : u ≠ "" :=
  sizeMatchScan_unit_ne_empty s.data h

/-- Lower-casing keeps a string nonempty. -/
theorem jsLower_ne_empty {u : String} (hu : u ≠ "") : jsLower u ≠ "" := by
  intro hcon
  apply hu
  have hd : u.data.map Char.toLower = [] := congrArg String.data hcon
  have hnil : u.data = [] := List.map_eq_nil_iff.mp hd
  cases u with
  | mk d =>
    show String.mk d = ""
    rw [show d = [] from hnil]

/-- **C10 counterexample**: (a) for the name " Arroz" (leading space) the
code derives the category from the *raw* name split at the first space, so
the category is the empty string, not "arroz" — the first word of the
trimmed name; (b) a size "0g" parses to measure value 0, whose falsiness
excludes the entry from every comparison group, so a parsable size does not
always grant participation. -/
theorem c10_counterexample :
    (handleAddManualItem " Arroz" "5" "" 0 []).map (·.category) = [some ""] ∧
    jsLower (firstField (jsTrim " Arroz")) = "arroz" ∧
    (some "" : Option String) ≠ some "arroz" ∧
    (handleAddManualItem "Arroz" "5" "0g" 1 []).map (·.measureUnit) = [some "g"] ∧
    groupKeys (handleAddManualItem "Arroz" "5" "0g" 1 []) = [] := by
  refine ⟨by decide, by decide, by decide, by decide, ?_⟩
  have heq : handleAddManualItem "Arroz" "5" "0g" 1 [] =
      [{ productName := "Arroz", price := 1 * ratOfDigits ['5'] [],
         category := some "arroz",
         measureValue := some (ratOfDigits ['0'] []),
         measureUnit := some "g", id := 1, quantity := 1 }] := rfl
  have hv0 : ratOfDigits ['0'] [] = (0 : ℚ) := by
    have h0 : natOfDigits ['0'] = 0 := by decide
    have hnil : natOfDigits ([] : List Char) = 0 := by decide
    unfold ratOfDigits
    rw [h0, hnil]
    norm_num
  rw [heq, hv0]
  decide

/-- **C10 amended** *Every* manual entry that passes validation (nonblank
name and price, parsable price) is added with quantity 1 and with category
the lower-cased text of the *raw* name before its first space character —
whether or not a size was given; when additionally the size field is
nonblank and the size pattern finds a *nonzero* value and a unit, the entry
carries that measure and enters the comparison grouping under its normalized
derived category. -/
theorem c10_manual_entry (name price size : String) (nextId : Nat)
    (prev : List CartItem)
    (hname : jsTrim name ≠ "") (hpr : jsTrim price ≠ "")
    (pv : ℚ) (hparse : jsParseFloat (jsReplaceFirst price ',' '.') = some pv) :
    ∃ e, handleAddManualItem name price size nextId prev = e :: prev ∧
      e.quantity = 1 ∧
      e.category = some (jsLower (firstField name)) ∧
      (∀ v : ℚ, ∀ u : String, jsTrim size ≠ "" → matchSize size = some (v, u) →
        v ≠ 0 →
        e.measureValue = some v ∧
        e.measureUnit = some (jsLower u) ∧
        e ∈ comparisonGroup (e :: prev) (catKey e)) := by
  refine Exists.intro ({ productName := jsTrim name, price := pv, category := some (jsLower (firstField name)), measureValue := (if jsTrim size = "" then none else matchSize size).map (·.1), measureUnit := (if jsTrim size = "" then none else matchSize size).map (fun p => jsLower p.2), id := nextId, quantity := 1 } : CartItem) ⟨?_, rfl, rfl, ?_⟩
  · unfold handleAddManualItem
    rw [if_neg (by simp [hname, hpr]), hparse]
  · intro v u hs hm hv
    have hmv : (if jsTrim size = "" then none else matchSize size) = some (v, u) := by
      rw [if_neg hs, hm]
    refine ⟨?_, ?_, ?_⟩
    · show ((if jsTrim size = "" then none else matchSize size).map (·.1)) = some v
      rw [hmv, Option.map_some']
    · show ((if jsTrim size = "" then none
        else matchSize size).map (fun p => jsLower p.2)) = some (jsLower u)
      rw [hmv, Option.map_some']
    · apply mem_comparisonGroup.mpr
      refine ⟨List.mem_cons_self _ _, ?_, rfl⟩
      have hul : jsLower u ≠ "" := jsLower_ne_empty (matchSize_unit_ne_empty hm)
      simp [hasMeasure, qTruthy, sTruthy, hmv, hv, hul]

/-- **C10 witness**: a manual entry with a blank size (" Arroz", price "5")
still gets quantity 1 and the raw-name-derived category, and the entry
"Arroz 5kg", price "4,50", size "5kg" additionally carries the parsed
measure and joins its comparison group. -/
theorem c10_witness :
    (∃ e, handleAddManualItem " Arroz" "5" "" 0 [] = e :: [] ∧
      e.quantity = 1 ∧
      e.category = some (jsLower (firstField " Arroz"))) ∧
    (∃ e, handleAddManualItem "Arroz 5kg" "4,50" "5kg" 7 [] = e :: [] ∧
      e.quantity = 1 ∧
      e.category = some (jsLower (firstField "Arroz 5kg")) ∧
      e.measureValue = some (ratOfDigits ['5'] []) ∧
      e.measureUnit = some (jsLower "kg") ∧
      e ∈ comparisonGroup (e :: []) (catKey e)) := by
  constructor
  · obtain ⟨e, heq, hq, hc, -⟩ := c10_manual_entry " Arroz" "5" "" 0 []
      (by decide) (by decide) _ rfl
    exact ⟨e, heq, hq, hc⟩
  · have hv : ratOfDigits ['5'] [] ≠ 0 := by
      have h5 : natOfDigits ['5'] = 5 := by decide
      have hnil : natOfDigits ([] : List Char) = 0 := by decide
      unfold ratOfDigits
      rw [h5, hnil]
      norm_num
    obtain ⟨e, heq, hq, hc, hcond⟩ := c10_manual_entry "Arroz 5kg" "4,50" "5kg" 7 []
      (by decide) (by decide) _ rfl
    obtain ⟨hmv, hmu, hmem⟩ := hcond (ratOfDigits ['5'] []) "kg" (by decide) rfl hv
    exact ⟨e, heq, hq, hc, hmv, hmu, hmem⟩

end SmartCart
